import Mathlib

/-!
# Weighted fair queuing load balancer (`Load_Balancer.cpp`)

A shallow embedding of the scheduling core of `Load_Balancer.cpp` and the
properties proved about it.

Modelling conventions.

* C++ `int` and `long long` are modelled by `Int`; signed overflow is undefined
  behaviour in C++ and is not modelled (values are assumed to stay in range).
* C++ `double` is modelled by `Dbl`: IEEE-754 arithmetic with its special values
  (signed zero, the two infinities, NaN) but with exact rational results, i.e.
  rounding and overflow of finite values are left out.
* The global `vector<Website *> websites` is an explicit `List Website` that is
  passed to and returned from every operation.
* `queue<Request>` is a `List Request` whose head is the front of the queue.
* The capacity weight of a site is its member `total_weight`, which the
  constructor sets to `bandwidth + processing_power`.
* `map<int, double>` is an association list kept sorted by key.
* `multiset<pair<double, Request>>` is a list kept in the order in which the
  container is traversed: an element is inserted before the first element that
  compares greater (the upper bound), so equivalent elements stay in insertion
  order.  This describes the container whenever `operator<` is a strict weak
  ordering on the keys present, which is the case when no key holds a NaN or
  when every key holds one.
* Console output of `WFQ_Scheduling` is the list of `CompletionRecord`s, one per
  "Processed Request ID" line.  An out-of-range `websites[website_id - 1]` is
  undefined behaviour and is modelled by the output `none`.
-/

/-! ## Doubles -/

/-- Values of a `double`, with exact finite arithmetic. `fin 0` is `+0.0`. -/
inductive Dbl where
  | fin (q : ℚ)
  | nzero
  | pinf
  | ninf
  | nan
  deriving DecidableEq

namespace Dbl

/-- Conversion `int -> double`. -/
def ofInt (n : Int) : Dbl := fin n

/-- The sign bit (NaN is never inspected). -/
def isNeg : Dbl → Bool
  | fin q => decide (q < 0)
  | nzero => true
  | pinf => false
  | ninf => true
  | nan => false

/-- A zero with the given sign bit. -/
def zero (neg : Bool) : Dbl := if neg then nzero else fin 0

/-- An infinity with the given sign bit. -/
def inf (neg : Bool) : Dbl := if neg then ninf else pinf

/-- The rational value of a finite double (0 for the other values). -/
def toRat : Dbl → ℚ
  | fin q => q
  | _ => 0

/-- IEEE addition (round to nearest: an exact zero sum is `+0.0`). -/
def add : Dbl → Dbl → Dbl
  | nan, _ => nan
  | _, nan => nan
  | pinf, ninf => nan
  | ninf, pinf => nan
  | pinf, _ => pinf
  | _, pinf => pinf
  | ninf, _ => ninf
  | _, ninf => ninf
  | nzero, nzero => nzero
  | nzero, fin b => fin b
  | fin a, nzero => fin a
  | fin a, fin b => fin (a + b)

/-- IEEE division. -/
def div : Dbl → Dbl → Dbl
  | nan, _ => nan
  | _, nan => nan
  | pinf, pinf => nan
  | pinf, ninf => nan
  | ninf, pinf => nan
  | ninf, ninf => nan
  | pinf, y => inf y.isNeg
  | ninf, y => inf (!y.isNeg)
  | x, pinf => zero x.isNeg
  | x, ninf => zero (!x.isNeg)
  | nzero, nzero => nan
  | nzero, fin b => if b = 0 then nan else zero (!decide (b < 0))
  | fin a, nzero => if a = 0 then nan else inf (!decide (a < 0))
  | fin a, fin b =>
      if b = 0 then (if a = 0 then nan else inf (decide (a < 0)))
      else if a = 0 then zero (decide (b < 0))
      else fin (a / b)

/-- IEEE `<`: false as soon as one side is NaN; the two zeros compare equal. -/
def lt : Dbl → Dbl → Bool
  | nan, _ => false
  | _, nan => false
  | _, ninf => false
  | ninf, _ => true
  | pinf, _ => false
  | _, pinf => true
  | nzero, nzero => false
  | nzero, fin b => decide (0 < b)
  | fin a, nzero => decide (a < 0)
  | fin a, fin b => decide (a < b)

end Dbl

/-! ## Data model -/

/-- The alias `typedef pair<int, int> Request`: `{request_id, processing_time}`
in a site queue, `{request_id, website_id}` in the schedule. -/
abbrev Request := Int × Int

/-- The class `Website`. -/
structure Website where
  id : Int
  owner_id : Int
  bandwidth : Int
  processing_power : Int
  total_weight : Int
  request_queue : List Request
  deriving DecidableEq

/-- The constructor `Website::Website`. -/
def Website.new (website_id owner bw power : Int) : Website :=
  { id := website_id, owner_id := owner, bandwidth := bw, processing_power := power,
    total_weight := bw + power, request_queue := [] }

/-- The method `Website::add_request`: push at the back of the queue. -/
def Website.add_request (site : Website) (request_id processing_time : Int) : Website :=
  { site with request_queue := site.request_queue ++ [(request_id, processing_time)] }

/-- The class `HttpRequest`. -/
structure HttpRequest where
  id : Int
  target_website_id : Int
  processing_time : Int
  deriving DecidableEq

/-- The method `HttpRequest::enqueue_request`: the first site whose id is the
target receives the request; when there is none the registry is left as it is
(the source then only prints an error line). -/
def HttpRequest.enqueue_request (r : HttpRequest) : List Website → List Website
  | [] => []
  | site :: rest =>
      if site.id = r.target_website_id then
        site.add_request r.id r.processing_time :: rest
      else
        site :: HttpRequest.enqueue_request r rest

/-- An entry of the schedule, `pair<double, Request>`:
`{virtual_finish_time, {request_id, website_id}}`. -/
abbrev ScheduledTask := Dbl × Request

/-- One "Processed Request ID" output line. -/
structure CompletionRecord where
  request_id : Int
  site_id : Int
  actual_time : Int
  deriving DecidableEq

/-! ## Containers -/

/-- The assignment `weights[k] = v` on a `map<int, double>`. -/
def map_assign (k : Int) (v : Dbl) : List (Int × Dbl) → List (Int × Dbl)
  | [] => [(k, v)]
  | (k', v') :: rest =>
      if k < k' then (k, v) :: (k', v') :: rest
      else if k = k' then (k, v) :: rest
      else (k', v') :: map_assign k v rest

/-- Lookup of a key in a `map<int, double>`. -/
def map_find (m : List (Int × Dbl)) (k : Int) : Option Dbl :=
  (m.find? (fun e => decide (e.1 = k))).map Prod.snd

/-- The read `weights[k]`; a missing key reads as the default `0.0`. -/
def map_index (m : List (Int × Dbl)) (k : Int) : Dbl :=
  (map_find m k).getD (Dbl.fin 0)

/-- The comparison `operator<` of `pair<int, int>`. -/
def Request.lt (a b : Request) : Bool :=
  decide (a.1 < b.1) || (!decide (b.1 < a.1) && decide (a.2 < b.2))

/-- The comparison `operator<` of `pair<double, Request>`. -/
def ScheduledTask.lt (a b : ScheduledTask) : Bool :=
  Dbl.lt a.1 b.1 || (!Dbl.lt b.1 a.1 && Request.lt a.2 b.2)

/-- The call `schedule.insert(v)` on the multiset. -/
def multiset_insert (v : ScheduledTask) : List ScheduledTask → List ScheduledTask
  | [] => [v]
  | e :: rest =>
      if ScheduledTask.lt v e then v :: e :: rest else e :: multiset_insert v rest

/-! ## `LoadBalancer` -/

namespace LoadBalancer

/-- The method `LoadBalancer::add_website`. -/
def add_website (websites : List Website) (website_id owner_id bandwidth processing_power : Int) :
    List Website :=
  websites ++ [Website.new website_id owner_id bandwidth processing_power]

/-- First loop of `WFQ_Scheduling`: the raw weights and their total. -/
def collect_weights (websites : List Website) : List (Int × Dbl) × Dbl :=
  websites.foldl
    (fun acc site =>
      (map_assign site.id (Dbl.ofInt site.total_weight) acc.1,
       Dbl.add acc.2 (Dbl.ofInt site.total_weight)))
    ([], Dbl.fin 0)

/-- The map `weights` after the loop `weight /= total_weight`. -/
def normalized_weights (websites : List Website) : List (Int × Dbl) :=
  let acc := collect_weights websites
  acc.1.map (fun e => (e.1, Dbl.div e.2 acc.2))

/-- The inner `while` loop of `WFQ_Scheduling` for one site: pops the queue
until it is empty, advancing `virtual_time` and inserting one task per request.
Returns the queue and the multiset at loop exit. -/
def drain_site (weight : Dbl) (site_id : Int) :
    Dbl → List Request → List ScheduledTask → List Request × List ScheduledTask
  | _, [], schedule => ([], schedule)
  | virtual_time, (request_id, processing_time) :: queue, schedule =>
      let virtual_time' := Dbl.add virtual_time (Dbl.div (Dbl.ofInt processing_time) weight)
      drain_site weight site_id virtual_time' queue
        (multiset_insert (virtual_time', (request_id, site_id)) schedule)

/-- The scheduling loop of `WFQ_Scheduling` over the sites: the registry and the
multiset `schedule` at loop exit. -/
def scheduling_loop (weights : List (Int × Dbl)) :
    List Website → List ScheduledTask → List Website × List ScheduledTask
  | [], schedule => ([], schedule)
  | site :: rest, schedule =>
      let out := drain_site (map_index weights site.id) site.id (Dbl.fin 0)
        site.request_queue schedule
      let res := scheduling_loop weights rest out.2
      ({ site with request_queue := out.1 } :: res.1, res.2)

/-- The multiset `schedule` once every site has been drained, in traversal
order. This is the processing order. -/
def schedule (websites : List Website) : List ScheduledTask :=
  (scheduling_loop (normalized_weights websites) websites []).2

/-- The registry after the scheduling loop. -/
def drained (websites : List Website) : List Website :=
  (scheduling_loop (normalized_weights websites) websites []).1

/-- The processing loop of `WFQ_Scheduling`; `none` when `websites[website_id - 1]`
is out of range. -/
def process (websites : List Website) : Int → List ScheduledTask → Option (List CompletionRecord)
  | _, [] => some []
  | actual_time, (_, (request_id, website_id)) :: rest =>
      if 1 ≤ website_id then
        match websites[(website_id - 1).toNat]? with
        | some site =>
            let actual_time' := actual_time + site.processing_power
            (process websites actual_time' rest).map
              (fun out => { request_id := request_id, site_id := website_id,
                            actual_time := actual_time' } :: out)
        | none => none
      else none

/-- The method `LoadBalancer::WFQ_Scheduling`: the registry it leaves behind and
the completion records it prints. -/
def WFQ_Scheduling (websites : List Website) : List Website × Option (List CompletionRecord) :=
  (drained websites, process (drained websites) 0 (schedule websites))

end LoadBalancer

/-! ## Auxiliary definitions used in the statements -/

namespace LoadBalancer

/-- The tasks the inner loop inserts for one queue, in insertion order. -/
def site_tasks (weight : Dbl) (site_id : Int) : Dbl → List Request → List ScheduledTask
  | _, [] => []
  | virtual_time, (request_id, processing_time) :: queue =>
      let virtual_time' := Dbl.add virtual_time (Dbl.div (Dbl.ofInt processing_time) weight)
      (virtual_time', (request_id, site_id)) :: site_tasks weight site_id virtual_time' queue

/-- The tasks `WFQ_Scheduling` creates for the requests of `site`, in enqueue
order, each tagged with its virtual finish time. -/
def assigned_tasks (websites : List Website) (site : Website) : List ScheduledTask :=
  site_tasks (map_index (normalized_weights websites) site.id) site.id (Dbl.fin 0)
    site.request_queue

/-- Every task created during one run, in insertion order. -/
def emitted_tasks (websites : List Website) : List ScheduledTask :=
  websites.flatMap (assigned_tasks websites)

/-- The sum of the members `total_weight` over the registry. -/
def weight_sum (websites : List Website) : Int :=
  (websites.map (fun s => s.total_weight)).sum

/-- The requests queued in the registry as `(request id, id of the holding site)`. -/
def queued_pairs (websites : List Website) : List Request :=
  websites.flatMap (fun s => s.request_queue.map (fun r => (r.1, s.id)))

end LoadBalancer

/-! ## Concrete registries used below -/

namespace LoadBalancer

/-- Two sites of equal weight; request 2 goes to site 1 and request 1 to site 2. -/
def tie_registry : List Website :=
  let ws := add_website (add_website [] 1 1 50 50) 2 2 50 50
  let ws := HttpRequest.enqueue_request ⟨2, 1, 25⟩ ws
  HttpRequest.enqueue_request ⟨1, 2, 25⟩ ws

/-- Site 2 is registered before site 1; one request for site 2. -/
def swapped_registry : List Website :=
  let ws := add_website (add_website [] 2 2 30 10) 1 1 20 20
  HttpRequest.enqueue_request ⟨1, 2, 25⟩ ws

/-- Scenario 2 of the specification: weights 150 and 50, one request of
cost 30 for each site. -/
def fair_registry : List Website :=
  let ws := add_website (add_website [] 1 1 100 50) 2 2 25 25
  let ws := HttpRequest.enqueue_request ⟨1, 1, 30⟩ ws
  HttpRequest.enqueue_request ⟨2, 2, 30⟩ ws

/-- The first site of `fair_registry`. -/
def fair_site_a : Website :=
  { id := 1, owner_id := 1, bandwidth := 100, processing_power := 50, total_weight := 150,
    request_queue := [(1, 30)] }

/-- The second site of `fair_registry`. -/
def fair_site_b : Website :=
  { id := 2, owner_id := 2, bandwidth := 25, processing_power := 25, total_weight := 50,
    request_queue := [(2, 30)] }

/-- One site of weight 0 holding one request. -/
def zero_registry : List Website :=
  HttpRequest.enqueue_request ⟨1, 1, 25⟩ (add_website [] 1 1 0 0)

/-- One site of weight 100 without requests. -/
def single_registry : List Website :=
  add_website [] 1 1 50 50

end LoadBalancer

/-! ## Arithmetic on `Dbl` -/

namespace Dbl

theorem div_fin_of_pos (a b : ℚ) (hb : 0 < b) : div (fin a) (fin b) = fin (a / b) := by
  have hb0 : b ≠ 0 := ne_of_gt hb
  have hnb : ¬ b < 0 := not_lt.mpr hb.le
  by_cases ha : a = 0
  · subst ha
    simp [div, zero, hb0, hnb]
  · simp [div, hb0, ha]

theorem lt_trans {a b c : Dbl} (h1 : lt a b = true) (h2 : lt b c = true) : lt a c = true := by
  cases a <;> cases b <;> cases c <;> simp [lt] at * <;> linarith

theorem le_trans {a b c : Dbl} (ha : a ≠ nan) (hb : b ≠ nan) (hc : c ≠ nan)
    (h1 : lt b a = false) (h2 : lt c b = false) : lt c a = false := by
  cases a <;> cases b <;> cases c <;> simp [lt] at * <;> linarith

theorem lt_of_lt_of_le {a b c : Dbl} (hc : c ≠ nan)
    (h1 : lt a b = true) (h2 : lt c b = false) : lt a c = true := by
  cases a <;> cases b <;> cases c <;> simp [lt] at * <;> linarith

theorem lt_of_le_of_lt {a b c : Dbl} (ha : a ≠ nan)
    (h1 : lt b a = false) (h2 : lt b c = true) : lt a c = true := by
  cases a <;> cases b <;> cases c <;> simp [lt] at * <;> linarith

end Dbl

theorem Request.request_lt_trans {a b c : Request} (h1 : Request.lt a b = true)
    (h2 : Request.lt b c = true) : Request.lt a c = true := by
  simp only [Request.lt, Bool.or_eq_true, Bool.and_eq_true, Bool.not_eq_true', decide_eq_true_eq,
    decide_eq_false_iff_not] at *
  omega

theorem Dbl.lt_irrefl (a : Dbl) : Dbl.lt a a = false := by
  cases a <;> simp [Dbl.lt]

theorem ScheduledTask.task_lt_irrefl (a : ScheduledTask) : ScheduledTask.lt a a = false := by
  simp [ScheduledTask.lt, Request.lt, Dbl.lt_irrefl]

theorem ScheduledTask.task_lt_trans {a b c : ScheduledTask} (ha : a.1 ≠ Dbl.nan)
    (hb : b.1 ≠ Dbl.nan) (hc : c.1 ≠ Dbl.nan)
    (h1 : ScheduledTask.lt a b = true) (h2 : ScheduledTask.lt b c = true) :
    ScheduledTask.lt a c = true := by
  simp only [ScheduledTask.lt, Bool.or_eq_true, Bool.and_eq_true, Bool.not_eq_true'] at *
  rcases h1 with h1 | ⟨h1, h1'⟩
  · rcases h2 with h2 | ⟨h2, _⟩
    · exact Or.inl (Dbl.lt_trans h1 h2)
    · exact Or.inl (Dbl.lt_of_lt_of_le hc h1 h2)
  · rcases h2 with h2 | ⟨h2, h2'⟩
    · exact Or.inl (Dbl.lt_of_le_of_lt ha h1 h2)
    · exact Or.inr ⟨Dbl.le_trans ha hb hc h1 h2, Request.request_lt_trans h1' h2'⟩

/-! ## The multiset -/

/-- Insertion sort of a list of tasks into an existing schedule. -/
theorem multiset_insert_perm (v : ScheduledTask) (l : List ScheduledTask) :
    (multiset_insert v l).Perm (v :: l) := by
  induction l with
  | nil => simp [multiset_insert]
  | cons e rest ih =>
    unfold multiset_insert
    split
    · exact List.Perm.refl _
    · exact (List.Perm.cons e ih).trans (List.Perm.swap v e rest)

theorem mem_multiset_insert {v t : ScheduledTask} {l : List ScheduledTask} :
    t ∈ multiset_insert v l ↔ t = v ∨ t ∈ l := by
  rw [(multiset_insert_perm v l).mem_iff, List.mem_cons]

theorem multiset_insert_sorted (v : ScheduledTask) (l : List ScheduledTask)
    (hv : v.1 ≠ Dbl.nan) (hl : ∀ t ∈ l, t.1 ≠ Dbl.nan)
    (hs : l.Pairwise (fun a b => ScheduledTask.lt b a = false)) :
    (multiset_insert v l).Pairwise (fun a b => ScheduledTask.lt b a = false) := by
  induction l with
  | nil => simp [multiset_insert]
  | cons e rest ih =>
    rw [List.pairwise_cons] at hs
    unfold multiset_insert
    split
    next hlt =>
      refine List.pairwise_cons.mpr ⟨?_, List.pairwise_cons.mpr hs⟩
      intro q hq
      rcases List.mem_cons.mp hq with rfl | hq
      · cases h : ScheduledTask.lt q v with
        | false => rfl
        | true =>
          have h3 := ScheduledTask.task_lt_trans hv (hl q (List.mem_cons_self _ _)) hv hlt h
          rw [ScheduledTask.task_lt_irrefl] at h3
          exact absurd h3 (by simp)
      · cases h : ScheduledTask.lt q v with
        | false => rfl
        | true =>
          have h3 := ScheduledTask.task_lt_trans (hl q (List.mem_cons_of_mem _ hq)) hv
            (hl e (List.mem_cons_self _ _)) h hlt
          rw [hs.1 q hq] at h3
          exact absurd h3 (by simp)
    next hlt =>
      refine List.pairwise_cons.mpr ⟨?_, ih (fun t ht => hl t (List.mem_cons_of_mem _ ht)) hs.2⟩
      intro q hq
      rcases mem_multiset_insert.mp hq with rfl | hq
      · simpa using hlt
      · exact hs.1 q hq

namespace LoadBalancer

theorem drain_site_eq (weight : Dbl) (site_id : Int) (vt : Dbl) (queue : List Request)
    (sched : List ScheduledTask) :
    drain_site weight site_id vt queue sched =
      ([], (site_tasks weight site_id vt queue).foldl (fun acc t => multiset_insert t acc)
        sched) := by
  induction queue generalizing vt sched with
  | nil => rfl
  | cons r queue ih =>
    obtain ⟨rid, pt⟩ := r
    simp only [drain_site, site_tasks, List.foldl_cons]
    exact ih _ _

theorem scheduling_loop_eq (weights : List (Int × Dbl)) (ws : List Website)
    (init : List ScheduledTask) :
    scheduling_loop weights ws init =
      (ws.map (fun s => { s with request_queue := [] }),
       (ws.flatMap (fun s =>
          site_tasks (map_index weights s.id) s.id (Dbl.fin 0) s.request_queue)).foldl
        (fun acc t => multiset_insert t acc) init) := by
  induction ws generalizing init with
  | nil => rfl
  | cons s rest ih =>
    simp only [scheduling_loop, drain_site_eq, ih, List.map_cons, List.flatMap_cons,
      List.foldl_append]

theorem schedule_eq (ws : List Website) :
    schedule ws = (emitted_tasks ws).foldl (fun acc t => multiset_insert t acc) [] := by
  unfold schedule emitted_tasks assigned_tasks
  rw [scheduling_loop_eq]

/-- The scheduling loop leaves every queue empty and nothing else changed. -/
theorem drained_eq (ws : List Website) :
    drained ws = ws.map (fun s => { s with request_queue := [] }) := by
  unfold drained
  rw [scheduling_loop_eq]

theorem foldl_insert_perm (ts init : List ScheduledTask) :
    (ts.foldl (fun acc t => multiset_insert t acc) init).Perm (ts ++ init) := by
  induction ts generalizing init with
  | nil => simp
  | cons t ts ih =>
    simp only [List.foldl_cons, List.cons_append]
    exact (ih _).trans ((List.Perm.append_left ts (multiset_insert_perm t init)).trans
      List.perm_middle)

theorem foldl_insert_sorted (ts init : List ScheduledTask)
    (hts : ∀ t ∈ ts, t.1 ≠ Dbl.nan) (hinit : ∀ t ∈ init, t.1 ≠ Dbl.nan)
    (hs : init.Pairwise (fun a b => ScheduledTask.lt b a = false)) :
    (ts.foldl (fun acc t => multiset_insert t acc) init).Pairwise
      (fun a b => ScheduledTask.lt b a = false) := by
  induction ts generalizing init with
  | nil => simpa using hs
  | cons t ts ih =>
    simp only [List.foldl_cons]
    apply ih _ (fun x hx => hts x (List.mem_cons_of_mem _ hx))
    · intro x hx
      rcases mem_multiset_insert.mp hx with rfl | hx
      · exact hts _ (List.mem_cons_self _ _)
      · exact hinit x hx
    · exact multiset_insert_sorted t init (hts t (List.mem_cons_self _ _)) hinit hs

theorem schedule_perm (ws : List Website) : (schedule ws).Perm (emitted_tasks ws) := by
  rw [schedule_eq]
  simpa using foldl_insert_perm (emitted_tasks ws) []

theorem schedule_sorted (ws : List Website) (h : ∀ t ∈ schedule ws, t.1 ≠ Dbl.nan) :
    (schedule ws).Pairwise (fun a b => ScheduledTask.lt b a = false) := by
  have h' : ∀ t ∈ emitted_tasks ws, t.1 ≠ Dbl.nan :=
    fun t ht => h t ((schedule_perm ws).mem_iff.mpr ht)
  rw [schedule_eq]
  exact foldl_insert_sorted _ [] h' (by simp) List.Pairwise.nil

end LoadBalancer

/-! ## The weight map -/

theorem map_find_assign (k k' : Int) (v : Dbl) (m : List (Int × Dbl)) :
    map_find (map_assign k v m) k' = if k = k' then some v else map_find m k' := by
  induction m with
  | nil => by_cases h : k = k' <;> simp [map_assign, map_find, h]
  | cons e rest ih =>
    obtain ⟨ke, ve⟩ := e
    rw [map_assign]
    by_cases h1 : k < ke
    · rw [if_pos h1]
      by_cases h : k = k' <;> simp [map_find, h]
    · rw [if_neg h1]
      by_cases h2 : k = ke
      · rw [if_pos h2]
        subst h2
        by_cases h : k = k' <;> simp [map_find, h]
      · rw [if_neg h2]
        have hne : ¬ ke = k := fun h' => h2 h'.symm
        by_cases h : k = k'
        · subst h
          simpa [map_find, hne] using ih
        · by_cases h3 : ke = k'
          · simp [map_find, h3, h]
          · simpa [map_find, h3, h] using ih

theorem map_assign_keys (k k' : Int) (v : Dbl) (m : List (Int × Dbl)) :
    k' ∈ (map_assign k v m).map Prod.fst ↔ k' = k ∨ k' ∈ m.map Prod.fst := by
  induction m with
  | nil => simp [map_assign]
  | cons e rest ih =>
    obtain ⟨ke, ve⟩ := e
    unfold map_assign
    by_cases h1 : k < ke
    · simp [h1]
    · by_cases h2 : k = ke
      · subst h2
        simp
      · simp only [h1, h2, if_false, List.map_cons, List.mem_cons, ih]
        tauto

theorem map_assign_perm (k : Int) (v : Dbl) (m : List (Int × Dbl))
    (hk : k ∉ m.map Prod.fst) : (map_assign k v m).Perm ((k, v) :: m) := by
  induction m with
  | nil => simp [map_assign]
  | cons e rest ih =>
    obtain ⟨ke, ve⟩ := e
    simp only [List.map_cons, List.mem_cons, not_or] at hk
    unfold map_assign
    by_cases h1 : k < ke
    · simp [h1]
    · simp only [h1, hk.1, if_false]
      exact (List.Perm.cons _ (ih hk.2)).trans (List.Perm.swap _ _ _)

theorem map_find_map_div (m : List (Int × Dbl)) (total : Dbl) (k : Int) :
    map_find (m.map (fun e => (e.1, Dbl.div e.2 total))) k =
      (map_find m k).map (fun w => Dbl.div w total) := by
  induction m with
  | nil => simp [map_find]
  | cons e rest ih =>
    by_cases h : e.1 = k
    · simp [map_find, h]
    · simpa [map_find, h] using ih

namespace LoadBalancer

/-- The fold of the first loop, on the map alone. -/
theorem collect_weights_fold (ws : List Website) (m : List (Int × Dbl)) (t : Dbl) :
    ws.foldl
        (fun acc site =>
          (map_assign site.id (Dbl.ofInt site.total_weight) acc.1,
           Dbl.add acc.2 (Dbl.ofInt site.total_weight)))
        (m, t) =
      (ws.foldl (fun m site => map_assign site.id (Dbl.ofInt site.total_weight) m) m,
       ws.foldl (fun t site => Dbl.add t (Dbl.ofInt site.total_weight)) t) := by
  induction ws generalizing m t with
  | nil => rfl
  | cons s rest ih => simp only [List.foldl_cons, ih]

theorem total_fold (ws : List Website) (q : ℚ) :
    ws.foldl (fun t site => Dbl.add t (Dbl.ofInt site.total_weight)) (Dbl.fin q) =
      Dbl.fin (q + ((ws.map (fun s => s.total_weight)).sum : Int)) := by
  induction ws generalizing q with
  | nil => simp
  | cons s rest ih =>
    simp only [List.foldl_cons, List.map_cons, List.sum_cons]
    rw [show Dbl.add (Dbl.fin q) (Dbl.ofInt s.total_weight) = Dbl.fin (q + s.total_weight) from rfl,
      ih]
    congr 1
    push_cast
    ring

theorem collect_weights_total (ws : List Website) :
    (collect_weights ws).2 = Dbl.fin (weight_sum ws) := by
  unfold collect_weights weight_sum
  rw [collect_weights_fold, total_fold]
  simp

theorem raw_find_of_not_mem (ws : List Website) (m : List (Int × Dbl)) (k : Int)
    (hk : k ∉ ws.map (fun s => s.id)) :
    map_find (ws.foldl (fun m site => map_assign site.id (Dbl.ofInt site.total_weight) m) m) k =
      map_find m k := by
  induction ws generalizing m with
  | nil => rfl
  | cons s rest ih =>
    simp only [List.map_cons, List.mem_cons, not_or] at hk
    simp only [List.foldl_cons]
    rw [ih _ hk.2, map_find_assign, if_neg (fun h => hk.1 h.symm)]

/-- The raw weight read for a registered id is the weight of some site with
that id (the last one registered). -/
theorem raw_find_of_mem (ws : List Website) (m : List (Int × Dbl)) (k : Int)
    (hk : k ∈ ws.map (fun s => s.id)) :
    ∃ s' ∈ ws, s'.id = k ∧
      map_find (ws.foldl (fun m site => map_assign site.id (Dbl.ofInt site.total_weight) m) m)
        k = some (Dbl.ofInt s'.total_weight) := by
  induction ws generalizing m with
  | nil => simp at hk
  | cons a rest ih =>
    simp only [List.foldl_cons]
    by_cases hmem : k ∈ rest.map (fun s => s.id)
    · obtain ⟨s', hs', hid', hfind⟩ := ih (map_assign a.id (Dbl.ofInt a.total_weight) m) hmem
      exact ⟨s', List.mem_cons_of_mem _ hs', hid', hfind⟩
    · have hka : a.id = k := by
        rcases List.mem_cons.mp hk with h | h
        · exact h.symm
        · exact absurd h hmem
      refine ⟨a, List.mem_cons_self _ _, hka, ?_⟩
      rw [raw_find_of_not_mem _ _ _ hmem, map_find_assign, if_pos hka]

/-- The normalized weight of a registered site is some registered site's weight
with the same id, divided by the total. -/
theorem weight_of_mem (ws : List Website) (s : Website) (hs : s ∈ ws) :
    ∃ s' ∈ ws, s'.id = s.id ∧
      map_index (normalized_weights ws) s.id =
        Dbl.div (Dbl.ofInt s'.total_weight) (Dbl.fin (weight_sum ws)) := by
  obtain ⟨s', hs', hid, hfind⟩ := raw_find_of_mem ws [] s.id (List.mem_map_of_mem _ hs)
  refine ⟨s', hs', hid, ?_⟩
  unfold map_index normalized_weights
  simp only [map_find_map_div, collect_weights_total]
  unfold collect_weights
  rw [collect_weights_fold]
  simp only [hfind, Option.map_some', Option.getD_some]

theorem weight_of_nodup (ws : List Website) (s : Website) (hs : s ∈ ws)
    (hnodup : (ws.map (fun s => s.id)).Nodup) :
    map_index (normalized_weights ws) s.id =
      Dbl.div (Dbl.ofInt s.total_weight) (Dbl.fin (weight_sum ws)) := by
  obtain ⟨s', hs', hid, hw⟩ := weight_of_mem ws s hs
  have : s' = s := List.inj_on_of_nodup_map hnodup hs' hs hid
  rw [hw, this]

end LoadBalancer

/-! ## Virtual finish times of one site -/

namespace LoadBalancer

theorem site_tasks_snd (weight : Dbl) (site_id : Int) (vt : Dbl) (queue : List Request) :
    (site_tasks weight site_id vt queue).map Prod.snd = queue.map (fun r => (r.1, site_id)) := by
  induction queue generalizing vt with
  | nil => rfl
  | cons r queue ih =>
    obtain ⟨rid, pt⟩ := r
    simp only [site_tasks, List.map_cons, ih]

theorem site_tasks_length (weight : Dbl) (site_id : Int) (vt : Dbl) (queue : List Request) :
    (site_tasks weight site_id vt queue).length = queue.length := by
  have h := congrArg List.length (site_tasks_snd weight site_id vt queue)
  simpa using h

/-- Tasks of a site carry the id of that site. -/
theorem assigned_tasks_site (ws : List Website) (s : Website) :
    ∀ t ∈ assigned_tasks ws s, t.2.2 = s.id := by
  intro t ht
  have h : t.2 ∈ (assigned_tasks ws s).map Prod.snd := List.mem_map_of_mem _ ht
  rw [assigned_tasks, site_tasks_snd] at h
  obtain ⟨r, _, hr⟩ := List.mem_map.mp h
  rw [← hr]

theorem emitted_tasks_snd (ws : List Website) :
    (emitted_tasks ws).map Prod.snd = queued_pairs ws := by
  unfold emitted_tasks queued_pairs
  rw [List.map_flatMap]
  congr 1
  funext s
  exact site_tasks_snd _ _ _ _

theorem schedule_pairs_perm (ws : List Website) :
    ((schedule ws).map Prod.snd).Perm (queued_pairs ws) := by
  rw [← emitted_tasks_snd]
  exact (schedule_perm ws).map _

end LoadBalancer

/-! ## Order of the merged schedule -/

namespace LoadBalancer

/-- With a positive total, the normalized weight of a site with unique id is the
finite quotient of its `total_weight` by the total. -/
theorem weight_fin (ws : List Website) (s : Website) (hs : s ∈ ws)
    (hnodup : (ws.map (fun s => s.id)).Nodup) (htotal : 0 < weight_sum ws) :
    map_index (normalized_weights ws) s.id =
      Dbl.fin ((s.total_weight : ℚ) / (weight_sum ws : ℚ)) := by
  rw [weight_of_nodup ws s hs hnodup, Dbl.ofInt, Dbl.div_fin_of_pos]
  exact_mod_cast htotal

end LoadBalancer

/-! ## The processing loop -/

namespace LoadBalancer

theorem process_pairs (ws : List Website) (a : Int) (tasks : List ScheduledTask)
    (recs : List CompletionRecord) (h : process ws a tasks = some recs) :
    recs.map (fun c => (c.request_id, c.site_id)) = tasks.map Prod.snd := by
  induction tasks generalizing a recs with
  | nil =>
    simp only [process, Option.some.injEq] at h
    subst h
    rfl
  | cons t rest ih =>
    obtain ⟨vt, rid, sid⟩ := t
    simp only [process] at h
    split at h
    · split at h
      · next site _ =>
        cases hp : process ws (a + site.processing_power) rest with
        | none => simp [hp] at h
        | some out =>
          simp only [hp, Option.map_some', Option.some.injEq] at h
          subst h
          simp [ih _ out hp]
      · exact absurd h (by simp)
    · exact absurd h (by simp)

theorem process_some (ws : List Website) (a : Int) (tasks : List ScheduledTask)
    (h : ∀ t ∈ tasks, 1 ≤ t.2.2 ∧ t.2.2 ≤ ws.length) :
    ∃ recs, process ws a tasks = some recs := by
  induction tasks generalizing a with
  | nil => exact ⟨[], rfl⟩
  | cons t rest ih =>
    obtain ⟨vt, rid, sid⟩ := t
    obtain ⟨h1, h2⟩ := h (vt, rid, sid) (List.mem_cons_self _ _)
    simp only at h1 h2
    have hlt : (sid - 1).toNat < ws.length := by omega
    obtain ⟨out, hout⟩ := ih (a + (ws[(sid - 1).toNat]).processing_power)
      (fun t ht => h t (List.mem_cons_of_mem _ ht))
    refine ⟨{ request_id := rid, site_id := sid,
              actual_time := a + (ws[(sid - 1).toNat]).processing_power } :: out, ?_⟩
    simp only [process, h1, if_true, List.getElem?_eq_getElem hlt, hout, Option.map_some']

end LoadBalancer

/-! ## Entries of the weight map -/

namespace LoadBalancer

theorem raw_keys (ws : List Website) (m : List (Int × Dbl)) (k : Int) :
    k ∈ (ws.foldl (fun m site => map_assign site.id (Dbl.ofInt site.total_weight) m) m).map
        Prod.fst ↔ k ∈ m.map Prod.fst ∨ k ∈ ws.map (fun s => s.id) := by
  induction ws generalizing m with
  | nil => simp
  | cons a rest ih =>
    simp only [List.foldl_cons, ih, map_assign_keys, List.map_cons, List.mem_cons]
    tauto

theorem raw_perm (ws : List Website) (m : List (Int × Dbl))
    (hnodup : (ws.map (fun s => s.id)).Nodup) (hdisj : ∀ s ∈ ws, s.id ∉ m.map Prod.fst) :
    (ws.foldl (fun m site => map_assign site.id (Dbl.ofInt site.total_weight) m) m).Perm
      (m ++ ws.map (fun s => (s.id, Dbl.ofInt s.total_weight))) := by
  induction ws generalizing m with
  | nil => simp
  | cons a rest ih =>
    rw [List.map_cons, List.nodup_cons] at hnodup
    simp only [List.foldl_cons, List.map_cons]
    have ha : a.id ∉ m.map Prod.fst := hdisj a (List.mem_cons_self _ _)
    have hd : ∀ s ∈ rest, s.id ∉ (map_assign a.id (Dbl.ofInt a.total_weight) m).map Prod.fst := by
      intro s hs hmem
      rcases (map_assign_keys _ _ _ _).mp hmem with h | h
      · exact hnodup.1 (List.mem_map.mpr ⟨s, hs, h⟩)
      · exact hdisj s (List.mem_cons_of_mem _ hs) h
    refine (ih _ hnodup.2 hd).trans ?_
    refine ((map_assign_perm _ _ _ ha).append_right _).trans ?_
    have hmid : (m ++ (a.id, Dbl.ofInt a.total_weight) ::
        rest.map (fun s => (s.id, Dbl.ofInt s.total_weight))).Perm
        ((a.id, Dbl.ofInt a.total_weight) ::
          (m ++ rest.map (fun s => (s.id, Dbl.ofInt s.total_weight)))) := List.perm_middle
    simpa using hmid.symm

/-- With unique ids and a positive total, the map holds one entry per site:
the site's id with the quotient of its weight by the total. -/
theorem normalized_perm (ws : List Website) (hnodup : (ws.map (fun s => s.id)).Nodup)
    (htotal : 0 < weight_sum ws) :
    (normalized_weights ws).Perm
      (ws.map (fun s => (s.id, Dbl.fin ((s.total_weight : ℚ) / (weight_sum ws : ℚ))))) := by
  have hT : (0 : ℚ) < (weight_sum ws : ℚ) := by exact_mod_cast htotal
  have h := raw_perm ws [] hnodup (by simp)
  unfold normalized_weights
  simp only [collect_weights_total]
  unfold collect_weights
  rw [collect_weights_fold]
  have h2 := h.map (fun e : Int × Dbl => (e.1, Dbl.div e.2 (Dbl.fin (weight_sum ws))))
  simp only [List.nil_append, List.map_map] at h2
  refine h2.trans ?_
  apply List.Perm.of_eq
  apply List.map_congr_left
  intro s _
  simp [Dbl.ofInt, Dbl.div_fin_of_pos _ _ hT]

end LoadBalancer

/-! ## Evaluation of the concrete registries -/

namespace LoadBalancer

theorem tie_registry_eq : tie_registry =
    [ { id := 1, owner_id := 1, bandwidth := 50, processing_power := 50, total_weight := 100,
        request_queue := [(2, 25)] },
      { id := 2, owner_id := 2, bandwidth := 50, processing_power := 50, total_weight := 100,
        request_queue := [(1, 25)] } ] := by
  decide

theorem tie_schedule :
    schedule tie_registry = [(Dbl.fin 50, (1, 2)), (Dbl.fin 50, (2, 1))] := by
  rw [tie_registry_eq]
  norm_num [schedule, scheduling_loop, normalized_weights, collect_weights, map_assign,
    drain_site, map_index,
    map_find, multiset_insert, ScheduledTask.lt, Request.lt, Dbl.ofInt, Dbl.add, Dbl.div, Dbl.lt]

theorem swapped_registry_eq : swapped_registry =
    [ { id := 2, owner_id := 2, bandwidth := 30, processing_power := 10, total_weight := 40,
        request_queue := [(1, 25)] },
      { id := 1, owner_id := 1, bandwidth := 20, processing_power := 20, total_weight := 40,
        request_queue := [] } ] := by
  decide

theorem swapped_schedule : schedule swapped_registry = [(Dbl.fin 50, (1, 2))] := by
  rw [swapped_registry_eq]
  norm_num [schedule, scheduling_loop, normalized_weights, collect_weights, map_assign,
    drain_site, map_index,
    map_find, multiset_insert, ScheduledTask.lt, Request.lt, Dbl.ofInt, Dbl.add, Dbl.div, Dbl.lt]

theorem fair_registry_eq : fair_registry = [fair_site_a, fair_site_b] := by
  decide

theorem fair_schedule :
    schedule fair_registry = [(Dbl.fin 40, (1, 1)), (Dbl.fin 120, (2, 2))] := by
  rw [fair_registry_eq]
  norm_num [schedule, scheduling_loop, normalized_weights, collect_weights, map_assign,
    drain_site, map_index,
    map_find, multiset_insert, ScheduledTask.lt, Request.lt, Dbl.ofInt, Dbl.add, Dbl.div, Dbl.lt,
    fair_site_a, fair_site_b]

end LoadBalancer

/-! ## The claims -/

namespace LoadBalancer

/-- C1 (counterexample): in `tie_registry` both tasks have virtual finish time
50, and the task of site 2 is processed before the task of site 1, so tasks of
equal virtual finish time are not ordered by ascending site id. -/
theorem C1_tie_break_counterexample :
    schedule tie_registry = [(Dbl.fin 50, (1, 2)), (Dbl.fin 50, (2, 1))] ∧
      ¬ (schedule tie_registry).Pairwise
          (fun a b => Dbl.lt a.1 b.1 = true ∨ (a.1 = b.1 ∧ a.2.2 ≤ b.2.2)) := by
  refine ⟨tie_schedule, ?_⟩
  rw [tie_schedule]
  norm_num [Dbl.lt]

/-- C1 (amended): when no virtual finish time is NaN, the processing order of
`WFQ_Scheduling` is sorted ascending by virtual finish time, and of two tasks
with equal virtual finish time the earlier one has the smaller request id or,
for equal request ids, a site id that is not larger. -/
theorem C1_schedule_order (ws : List Website) (h : ∀ t ∈ schedule ws, t.1 ≠ Dbl.nan) :
    (schedule ws).Pairwise
      (fun a b => Dbl.lt b.1 a.1 = false ∧
        (Dbl.lt a.1 b.1 = false → a.2.1 < b.2.1 ∨ (a.2.1 = b.2.1 ∧ a.2.2 ≤ b.2.2))) := by
  refine (schedule_sorted ws h).imp ?_
  intro a b hab
  simp only [ScheduledTask.lt, Request.lt, Bool.or_eq_false_iff, Bool.and_eq_false_imp,
    Bool.not_eq_true', decide_eq_true_eq, decide_eq_false_iff_not] at hab
  refine ⟨hab.1, fun h1 => ?_⟩
  have h2 := hab.2 h1
  omega

/-- C1 (witness): the amended order holds in `tie_registry`. -/
theorem C1_schedule_order_witness :
    (∀ t ∈ schedule tie_registry, t.1 ≠ Dbl.nan) ∧
      (schedule tie_registry).Pairwise
        (fun a b => Dbl.lt b.1 a.1 = false ∧
          (Dbl.lt a.1 b.1 = false → a.2.1 < b.2.1 ∨ (a.2.1 = b.2.1 ∧ a.2.2 ≤ b.2.2))) :=
  have h : ∀ t ∈ schedule tie_registry, t.1 ≠ Dbl.nan := by
    rw [tie_schedule]
    simp
  ⟨h, C1_schedule_order tie_registry h⟩

/-- C2 (failing input): in `swapped_registry` the ids are unique and positive and
every processing power is non-negative; the only record is for site 2, whose
processing power is 10, yet its actual time is 20, the processing power of the
site stored at index `2 - 1`. -/
theorem C2_actual_time_failing_input :
    (swapped_registry.map (fun s => s.id)).Nodup ∧
      (∀ s ∈ swapped_registry, 0 < s.id ∧ 0 ≤ s.processing_power) ∧
      (∀ s ∈ swapped_registry, s.id = 2 → s.processing_power = 10) ∧
      (WFQ_Scheduling swapped_registry).2 =
        some [{ request_id := 1, site_id := 2, actual_time := 20 }] := by
  refine ⟨by decide, by decide, by decide, ?_⟩
  unfold WFQ_Scheduling
  rw [swapped_schedule, drained_eq, swapped_registry_eq]
  simp [process]

end LoadBalancer

namespace LoadBalancer

end LoadBalancer

namespace LoadBalancer

end LoadBalancer

theorem Dbl.perm_map_fin (l : List Dbl) (qs' : List ℚ) (h : l.Perm (qs'.map Dbl.fin)) :
    ∃ qs : List ℚ, l = qs.map Dbl.fin ∧ qs.Perm qs' := by
  refine ⟨l.map Dbl.toRat, ?_, ?_⟩
  · rw [List.map_map]
    symm
    conv_rhs => rw [← List.map_id l]
    apply List.map_congr_left
    intro x hx
    obtain ⟨q, _, hq⟩ := List.mem_map.mp (h.mem_iff.mp hx)
    rw [← hq]
    rfl
  · have h2 := h.map Dbl.toRat
    rw [List.map_map] at h2
    have h3 : qs'.map (Dbl.toRat ∘ Dbl.fin) = qs' := by
      conv_rhs => rw [← List.map_id qs']
      apply List.map_congr_left
      intro x _
      rfl
    rw [h3] at h2
    exact h2

namespace LoadBalancer

theorem fractions_sum (ws : List Website) (htotal : 0 < weight_sum ws) :
    (ws.map (fun s => (s.total_weight : ℚ) / (weight_sum ws : ℚ))).sum = 1 := by
  have hT : (weight_sum ws : ℚ) ≠ 0 := by
    have : (0 : ℚ) < (weight_sum ws : ℚ) := by exact_mod_cast htotal
    exact ne_of_gt this
  simp only [div_eq_mul_inv]
  rw [List.sum_map_mul_right]
  have hsum : (ws.map (fun s => (s.total_weight : ℚ))).sum = (weight_sum ws : ℚ) := by
    unfold weight_sum
    push_cast
    rw [List.map_map]
    rfl
  rw [hsum]
  exact mul_inv_cancel₀ hT

end LoadBalancer

namespace LoadBalancer

/-- C6: in a registry with unique ids whose total capacity weight (the sum of
`bandwidth + processing_power`) is positive (such a registry is not empty, the
empty sum being 0), the total computed is that sum, the map of normalized weights holds exactly one entry per site, the
site's capacity weight divided by the total, that entry is what is read for
the site, and the normalized weights are finite numbers whose sum is 1. -/
theorem C6_normalized_weights (ws : List Website)
    (hinv : ∀ s ∈ ws, s.total_weight = s.bandwidth + s.processing_power)
    (hnodup : (ws.map (fun s => s.id)).Nodup)
    (htotal : 0 < (ws.map (fun s => s.bandwidth + s.processing_power)).sum) :
    (collect_weights ws).2 =
        Dbl.fin ((ws.map (fun s => s.bandwidth + s.processing_power)).sum : Int) ∧
      (normalized_weights ws).Perm
        (ws.map (fun s => (s.id, Dbl.fin (((s.bandwidth + s.processing_power : Int) : ℚ) /
          (((ws.map (fun s => s.bandwidth + s.processing_power)).sum : Int) : ℚ))))) ∧
      (∀ s ∈ ws, map_index (normalized_weights ws) s.id =
        Dbl.fin (((s.bandwidth + s.processing_power : Int) : ℚ) /
          (((ws.map (fun s => s.bandwidth + s.processing_power)).sum : Int) : ℚ))) ∧
      ∃ qs : List ℚ, (normalized_weights ws).map Prod.snd = qs.map Dbl.fin ∧ qs.sum = 1 := by
  have hsum : (ws.map (fun s => s.bandwidth + s.processing_power)).sum = weight_sum ws := by
    unfold weight_sum
    congr 1
    apply List.map_congr_left
    intro s hs
    exact (hinv s hs).symm
  rw [hsum] at htotal ⊢
  have hperm := normalized_perm ws hnodup htotal
  refine ⟨collect_weights_total ws, ?_, ?_, ?_⟩
  · refine hperm.trans (List.Perm.of_eq ?_)
    apply List.map_congr_left
    intro s hs
    rw [hinv s hs]
  · intro s hs
    rw [weight_fin ws s hs hnodup htotal, hinv s hs]
  · have h2 := hperm.map Prod.snd
    rw [List.map_map] at h2
    have h3 : ws.map (Prod.snd ∘ fun s : Website =>
        (s.id, Dbl.fin ((s.total_weight : ℚ) / (weight_sum ws : ℚ)))) =
        (ws.map (fun s => (s.total_weight : ℚ) / (weight_sum ws : ℚ))).map Dbl.fin := by
      rw [List.map_map]
      rfl
    rw [h3] at h2
    obtain ⟨qs, hqs, hp⟩ := Dbl.perm_map_fin _ _ h2
    exact ⟨qs, hqs, by rw [hp.sum_eq, fractions_sum ws htotal]⟩

/-- C6 (witness): the weights of `fair_registry`. -/
theorem C6_normalized_weights_witness :
    fair_registry ≠ [] ∧
      (∀ s ∈ fair_registry, s.total_weight = s.bandwidth + s.processing_power) ∧
      (fair_registry.map (fun s => s.id)).Nodup ∧
      0 < (fair_registry.map (fun s => s.bandwidth + s.processing_power)).sum ∧
      ((collect_weights fair_registry).2 =
          Dbl.fin ((fair_registry.map (fun s => s.bandwidth + s.processing_power)).sum : Int) ∧
        (normalized_weights fair_registry).Perm
          (fair_registry.map (fun s => (s.id,
            Dbl.fin (((s.bandwidth + s.processing_power : Int) : ℚ) /
              (((fair_registry.map (fun s => s.bandwidth + s.processing_power)).sum : Int)
                : ℚ))))) ∧
        (∀ s ∈ fair_registry, map_index (normalized_weights fair_registry) s.id =
          Dbl.fin (((s.bandwidth + s.processing_power : Int) : ℚ) /
            (((fair_registry.map (fun s => s.bandwidth + s.processing_power)).sum : Int)
              : ℚ))) ∧
        ∃ qs : List ℚ, (normalized_weights fair_registry).map Prod.snd = qs.map Dbl.fin ∧
          qs.sum = 1) :=
  ⟨by decide, by decide, by decide, by decide,
    C6_normalized_weights fair_registry (by decide) (by decide) (by decide)⟩

end LoadBalancer

/-! ## Enqueueing -/

theorem HttpRequest.enqueue_request_unknown (r : HttpRequest) (ws : List Website)
    (h : ∀ s ∈ ws, s.id ≠ r.target_website_id) : r.enqueue_request ws = ws := by
  induction ws with
  | nil => rfl
  | cons a rest ih =>
    rw [HttpRequest.enqueue_request, if_neg (h a (List.mem_cons_self _ _)),
      ih (fun s hs => h s (List.mem_cons_of_mem _ hs))]

theorem HttpRequest.enqueue_request_known (r : HttpRequest) (ws : List Website)
    (h : ∃ s ∈ ws, s.id = r.target_website_id) :
    ∃ pre s post, ws = pre ++ s :: post ∧ (∀ x ∈ pre, x.id ≠ r.target_website_id) ∧
      s.id = r.target_website_id ∧
      r.enqueue_request ws = pre ++ s.add_request r.id r.processing_time :: post := by
  induction ws with
  | nil =>
    obtain ⟨s, hs, _⟩ := h
    simp at hs
  | cons a rest ih =>
    by_cases ha : a.id = r.target_website_id
    · refine ⟨[], a, rest, rfl, by simp, ha, ?_⟩
      rw [HttpRequest.enqueue_request, if_pos ha]
      rfl
    · have h' : ∃ s ∈ rest, s.id = r.target_website_id := by
        obtain ⟨s, hs, hid⟩ := h
        rcases List.mem_cons.mp hs with rfl | hs
        · exact absurd hid ha
        · exact ⟨s, hs, hid⟩
      obtain ⟨pre, s, post, hws, hpre, hid, henq⟩ := ih h'
      refine ⟨a :: pre, s, post, by rw [hws]; rfl, ?_, hid, ?_⟩
      · intro x hx
        rcases List.mem_cons.mp hx with rfl | hx
        · exact ha
        · exact hpre x hx
      · rw [HttpRequest.enqueue_request, if_neg ha, henq]
        rfl

namespace LoadBalancer

theorem schedule_site_mem (ws : List Website) :
    ∀ t ∈ schedule ws, ∃ s ∈ ws, t.2.2 = s.id := by
  intro t ht
  obtain ⟨s, hs, hts⟩ := List.mem_flatMap.mp ((schedule_perm ws).mem_iff.mp ht)
  exact ⟨s, hs, assigned_tasks_site ws s t hts⟩

/-- C7: a request whose target is the id of no registered site leaves the
registry as it is, so `WFQ_Scheduling` afterwards returns what it returns
without that request, and neither a scheduled task nor a completion record
carries the target id. -/
theorem C7_unknown_site (ws : List Website) (r : HttpRequest)
    (h : ∀ s ∈ ws, s.id ≠ r.target_website_id) :
    r.enqueue_request ws = ws ∧
      WFQ_Scheduling (r.enqueue_request ws) = WFQ_Scheduling ws ∧
      (∀ t ∈ schedule (r.enqueue_request ws), t.2.2 ≠ r.target_website_id) ∧
      (∀ recs, (WFQ_Scheduling (r.enqueue_request ws)).2 = some recs →
        ∀ c ∈ recs, c.site_id ≠ r.target_website_id) := by
  have he := HttpRequest.enqueue_request_unknown r ws h
  have hsched : ∀ t ∈ schedule ws, t.2.2 ≠ r.target_website_id := by
    intro t ht
    obtain ⟨s, hs, hid⟩ := schedule_site_mem ws t ht
    rw [hid]
    exact h s hs
  rw [he]
  refine ⟨rfl, rfl, hsched, ?_⟩
  intro recs hrecs c hc
  have hp := process_pairs (drained ws) 0 (schedule ws) recs hrecs
  have hmem : (c.request_id, c.site_id) ∈ (schedule ws).map Prod.snd := by
    rw [← hp]
    exact List.mem_map_of_mem (fun c : CompletionRecord => (c.request_id, c.site_id)) hc
  obtain ⟨t, ht, hte⟩ := List.mem_map.mp hmem
  have := hsched t ht
  rw [hte] at this
  exact this

/-- C7 (witness): a request for site 99 submitted to `fair_registry`. -/
theorem C7_unknown_site_witness :
    (∀ s ∈ fair_registry, s.id ≠ (HttpRequest.mk 3 99 10).target_website_id) ∧
      ((HttpRequest.mk 3 99 10).enqueue_request fair_registry = fair_registry ∧
        WFQ_Scheduling ((HttpRequest.mk 3 99 10).enqueue_request fair_registry) =
          WFQ_Scheduling fair_registry ∧
        (∀ t ∈ schedule ((HttpRequest.mk 3 99 10).enqueue_request fair_registry),
          t.2.2 ≠ (HttpRequest.mk 3 99 10).target_website_id) ∧
        (∀ recs, (WFQ_Scheduling ((HttpRequest.mk 3 99 10).enqueue_request fair_registry)).2 =
            some recs →
          ∀ c ∈ recs, c.site_id ≠ (HttpRequest.mk 3 99 10).target_website_id)) :=
  ⟨by decide, C7_unknown_site fair_registry (HttpRequest.mk 3 99 10) (by decide)⟩

end LoadBalancer

theorem Dbl.div_nan (x : Dbl) : Dbl.div x Dbl.nan = Dbl.nan := by
  cases x <;> rfl

theorem Dbl.add_nan (x : Dbl) : Dbl.add x Dbl.nan = Dbl.nan := by
  cases x <;> rfl

namespace LoadBalancer

theorem site_tasks_nan (site_id : Int) (vt : Dbl) (queue : List Request) :
    ∀ t ∈ site_tasks Dbl.nan site_id vt queue, t.1 = Dbl.nan := by
  induction queue generalizing vt with
  | nil => simp [site_tasks]
  | cons r queue ih =>
    obtain ⟨rid, pt⟩ := r
    simp only [site_tasks, Dbl.div_nan, Dbl.add_nan]
    intro t ht
    rcases List.mem_cons.mp ht with rfl | ht
    · rfl
    · exact ih _ t ht

theorem queued_pairs_length (ws : List Website) :
    (queued_pairs ws).length = (ws.map (fun s => s.request_queue.length)).sum := by
  induction ws with
  | nil => rfl
  | cons s rest ih =>
    simp only [queued_pairs, List.flatMap_cons, List.length_append, List.length_map,
      List.map_cons, List.sum_cons] at ih ⊢
    rw [ih]

theorem schedule_length (ws : List Website) :
    (schedule ws).length = (ws.map (fun s => s.request_queue.length)).sum := by
  rw [← queued_pairs_length, ← (schedule_pairs_perm ws).length_eq, List.length_map]

/-- When every site id is a valid index `1 .. N`, the processing loop completes
and prints one record per scheduled task. -/
theorem output_of_valid_ids (ws : List Website)
    (hid : ∀ s ∈ ws, 1 ≤ s.id ∧ s.id ≤ ws.length) :
    ∃ recs, (WFQ_Scheduling ws).2 = some recs ∧
      (recs.map (fun c => (c.request_id, c.site_id))).Perm (queued_pairs ws) := by
  have hrange : ∀ t ∈ schedule ws, 1 ≤ t.2.2 ∧ t.2.2 ≤ ws.length := by
    intro t ht
    obtain ⟨s, hs, hts⟩ := schedule_site_mem ws t ht
    rw [hts]
    exact hid s hs
  have hlen : (drained ws).length = ws.length := by rw [drained_eq, List.length_map]
  obtain ⟨recs, hrecs⟩ := process_some (drained ws) 0 (schedule ws) (by rwa [hlen])
  refine ⟨recs, hrecs, ?_⟩
  rw [process_pairs (drained ws) 0 (schedule ws) recs hrecs]
  exact schedule_pairs_perm ws

theorem zero_registry_eq : zero_registry =
    [ { id := 1, owner_id := 1, bandwidth := 0, processing_power := 0, total_weight := 0,
        request_queue := [(1, 25)] } ] := by
  decide

theorem zero_schedule : schedule zero_registry = [(Dbl.nan, (1, 1))] := by
  rw [zero_registry_eq]
  norm_num [schedule, scheduling_loop, normalized_weights, collect_weights, map_assign,
    drain_site, map_index,
    map_find, multiset_insert, Dbl.ofInt, Dbl.add, Dbl.div]

/-- C8 (counterexample): `zero_registry` is not empty and its only site has
capacity weight 0, yet `WFQ_Scheduling` completes and prints a completion
record for the queued request. -/
theorem C8_zero_weight_counterexample :
    zero_registry ≠ [] ∧
      (∀ s ∈ zero_registry, s.bandwidth + s.processing_power = 0) ∧
      (WFQ_Scheduling zero_registry).2 =
        some [{ request_id := 1, site_id := 1, actual_time := 0 }] := by
  refine ⟨by decide, by decide, ?_⟩
  unfold WFQ_Scheduling
  rw [zero_schedule, drained_eq, zero_registry_eq]
  simp [process]

/-- C8 (amended): in a registry whose sites all have capacity weight 0,
`WFQ_Scheduling` raises no error: every normalized weight and every virtual
finish time is NaN, every queued request is still scheduled, and when the site
ids are valid indices `1 .. N` one completion record is printed per queued
request. -/
theorem C8_zero_total_weight (ws : List Website)
    (hinv : ∀ s ∈ ws, s.total_weight = s.bandwidth + s.processing_power)
    (hzero : ∀ s ∈ ws, s.bandwidth + s.processing_power = 0) :
    (∀ s ∈ ws, map_index (normalized_weights ws) s.id = Dbl.nan) ∧
      (∀ t ∈ schedule ws, t.1 = Dbl.nan) ∧
      ((schedule ws).map Prod.snd).Perm (queued_pairs ws) ∧
      (schedule ws).length = (ws.map (fun s => s.request_queue.length)).sum ∧
      (schedule ws ≠ [] ↔ ∃ s ∈ ws, s.request_queue ≠ []) ∧
      ((∀ s ∈ ws, 1 ≤ s.id ∧ s.id ≤ ws.length) →
        ∃ recs, (WFQ_Scheduling ws).2 = some recs ∧
          (recs.map (fun c => (c.request_id, c.site_id))).Perm (queued_pairs ws)) := by
  have hw0 : ∀ s ∈ ws, s.total_weight = 0 := fun s hs => by rw [hinv s hs, hzero s hs]
  have hsum : weight_sum ws = 0 := by
    unfold weight_sum
    apply List.sum_eq_zero
    intro x hx
    obtain ⟨s, hs, rfl⟩ := List.mem_map.mp hx
    exact hw0 s hs
  have hnan : ∀ s ∈ ws, map_index (normalized_weights ws) s.id = Dbl.nan := by
    intro s hs
    obtain ⟨s', hs', _, hw⟩ := weight_of_mem ws s hs
    rw [hw, hw0 s' hs', hsum]
    simp [Dbl.ofInt, Dbl.div]
  refine ⟨hnan, ?_, schedule_pairs_perm ws, schedule_length ws, ?_, output_of_valid_ids ws⟩
  · intro t ht
    obtain ⟨s, hs, hts⟩ := List.mem_flatMap.mp ((schedule_perm ws).mem_iff.mp ht)
    rw [assigned_tasks, hnan s hs] at hts
    exact site_tasks_nan _ _ _ t hts
  · have hlen := schedule_length ws
    constructor
    · intro hsched
      by_contra hall
      push_neg at hall
      have : (ws.map (fun s => s.request_queue.length)).sum = 0 := by
        apply List.sum_eq_zero
        intro x hx
        obtain ⟨s, hs, rfl⟩ := List.mem_map.mp hx
        rw [hall s hs]
        rfl
      rw [this] at hlen
      exact hsched (List.length_eq_zero.mp hlen)
    · rintro ⟨s, hs, hq⟩ hsched
      have hmem : ∀ r ∈ s.request_queue, (r.1, s.id) ∈ (schedule ws).map Prod.snd := by
        intro r hr
        rw [(schedule_pairs_perm ws).mem_iff]
        exact List.mem_flatMap.mpr ⟨s, hs, List.mem_map_of_mem _ hr⟩
      cases hqs : s.request_queue with
      | nil => exact hq hqs
      | cons r rest =>
        have := hmem r (by rw [hqs]; exact List.mem_cons_self _ _)
        rw [hsched] at this
        simp at this

/-- C8 (witness): the amended statement at `zero_registry`. -/
theorem C8_zero_total_weight_witness :
    zero_registry ≠ [] ∧
      (∀ s ∈ zero_registry, s.total_weight = s.bandwidth + s.processing_power) ∧
      (∀ s ∈ zero_registry, s.bandwidth + s.processing_power = 0) ∧
      ((∀ s ∈ zero_registry, map_index (normalized_weights zero_registry) s.id = Dbl.nan) ∧
        (∀ t ∈ schedule zero_registry, t.1 = Dbl.nan) ∧
        ((schedule zero_registry).map Prod.snd).Perm (queued_pairs zero_registry) ∧
        (schedule zero_registry).length =
          (zero_registry.map (fun s => s.request_queue.length)).sum ∧
        (schedule zero_registry ≠ [] ↔ ∃ s ∈ zero_registry, s.request_queue ≠ []) ∧
        ((∀ s ∈ zero_registry, 1 ≤ s.id ∧ s.id ≤ zero_registry.length) →
          ∃ recs, (WFQ_Scheduling zero_registry).2 = some recs ∧
            (recs.map (fun c => (c.request_id, c.site_id))).Perm
              (queued_pairs zero_registry))) :=
  ⟨by decide, by decide, by decide,
    C8_zero_total_weight zero_registry (by decide) (by decide)⟩

end LoadBalancer

namespace LoadBalancer

theorem single_enqueue_eq :
    (HttpRequest.mk 1 1 0).enqueue_request single_registry =
      [ { id := 1, owner_id := 1, bandwidth := 50, processing_power := 50, total_weight := 100,
          request_queue := [(1, 0)] } ] := by
  decide

theorem single_schedule :
    schedule ((HttpRequest.mk 1 1 0).enqueue_request single_registry) =
      [(Dbl.fin 0, (1, 1))] := by
  rw [single_enqueue_eq]
  norm_num [schedule, scheduling_loop, normalized_weights, collect_weights, map_assign,
    drain_site, map_index,
    map_find, multiset_insert, Dbl.ofInt, Dbl.add, Dbl.div, Dbl.zero]

/-- C9 (counterexample): a request with processing time 0 for the registered
site 1 is appended to the queue of that site, and `WFQ_Scheduling` prints a
completion record for it. -/
theorem C9_zero_cost_counterexample :
    (HttpRequest.mk 1 1 0).processing_time ≤ 0 ∧
      (∃ s ∈ single_registry, s.id = (HttpRequest.mk 1 1 0).target_website_id) ∧
      (∀ s ∈ single_registry, s.request_queue = []) ∧
      (∀ s ∈ (HttpRequest.mk 1 1 0).enqueue_request single_registry,
        s.request_queue = [(1, 0)]) ∧
      (WFQ_Scheduling ((HttpRequest.mk 1 1 0).enqueue_request single_registry)).2 =
        some [{ request_id := 1, site_id := 1, actual_time := 50 }] := by
  refine ⟨by decide, by decide, by decide, by decide, ?_⟩
  unfold WFQ_Scheduling
  rw [single_schedule, drained_eq, single_enqueue_eq]
  simp [process]

/-- C9 (amended): a request with processing time `<= 0` that targets a
registered site is accepted like any other: it is appended to the queue of the
first site whose id is the target, no other queue changes, and `WFQ_Scheduling`
schedules a task for it. -/
theorem C9_nonpositive_cost_enqueued (ws : List Website) (r : HttpRequest)
    (_hpt : r.processing_time ≤ 0) (h : ∃ s ∈ ws, s.id = r.target_website_id) :
    (∃ pre s post, ws = pre ++ s :: post ∧ (∀ x ∈ pre, x.id ≠ r.target_website_id) ∧
        s.id = r.target_website_id ∧
        r.enqueue_request ws =
          pre ++ { s with request_queue := s.request_queue ++ [(r.id, r.processing_time)] }
            :: post) ∧
      (r.id, r.target_website_id) ∈ (schedule (r.enqueue_request ws)).map Prod.snd := by
  obtain ⟨pre, s, post, hws, hpre, hid, henq⟩ := HttpRequest.enqueue_request_known r ws h
  refine ⟨⟨pre, s, post, hws, hpre, hid, henq⟩, ?_⟩
  rw [(schedule_pairs_perm _).mem_iff, henq]
  refine List.mem_flatMap.mpr ⟨s.add_request r.id r.processing_time, by simp, ?_⟩
  simp [Website.add_request, hid]

/-- C9 (witness): the request of cost 0 submitted to `single_registry`. -/
theorem C9_nonpositive_cost_enqueued_witness :
    (HttpRequest.mk 1 1 0).processing_time ≤ 0 ∧
      (∃ s ∈ single_registry, s.id = (HttpRequest.mk 1 1 0).target_website_id) ∧
      ((∃ pre s post, single_registry = pre ++ s :: post ∧
          (∀ x ∈ pre, x.id ≠ (HttpRequest.mk 1 1 0).target_website_id) ∧
          s.id = (HttpRequest.mk 1 1 0).target_website_id ∧
          (HttpRequest.mk 1 1 0).enqueue_request single_registry =
            pre ++ { s with request_queue := s.request_queue ++
              [((HttpRequest.mk 1 1 0).id, (HttpRequest.mk 1 1 0).processing_time)] }
              :: post) ∧
        ((HttpRequest.mk 1 1 0).id, (HttpRequest.mk 1 1 0).target_website_id) ∈
          (schedule ((HttpRequest.mk 1 1 0).enqueue_request single_registry)).map Prod.snd) :=
  ⟨by decide, by decide,
    C9_nonpositive_cost_enqueued single_registry (HttpRequest.mk 1 1 0) (by decide) (by decide)⟩

/-- C10: the `(request_id, site_id)` pairs of the processing order are a
permutation of the pairs `(request id, id of the holding site)` of the requests
queued at the start, the number of tasks is the total number of queued
requests, every queue of the registry left behind is empty, and the printed
records carry the pairs of the processing order, in that order. -/
theorem C10_conservation (ws : List Website) :
    ((schedule ws).map Prod.snd).Perm (queued_pairs ws) ∧
      (schedule ws).length = (ws.map (fun s => s.request_queue.length)).sum ∧
      (∀ s ∈ (WFQ_Scheduling ws).1, s.request_queue = []) ∧
      (∀ recs, (WFQ_Scheduling ws).2 = some recs →
        recs.map (fun c => (c.request_id, c.site_id)) = (schedule ws).map Prod.snd) := by
  refine ⟨schedule_pairs_perm ws, schedule_length ws, ?_, ?_⟩
  · intro s hs
    have hs' : s ∈ drained ws := hs
    rw [drained_eq] at hs'
    obtain ⟨s', _, rfl⟩ := List.mem_map.mp hs'
    rfl
  · intro recs hrecs
    exact process_pairs (drained ws) 0 (schedule ws) recs hrecs

end LoadBalancer
